import Mathlib

/- Verification development for the web-scripts repository.

   The two Python source files, spider.py (a single-hop crawler computing
   relative term frequencies) and pscan.py (a port-argument parser), are
   shallowly embedded below. Python strings are modelled as `List Char`;
   fallible operations return `Option`; the external collaborators
   (the requests HTTP client, the BeautifulSoup HTML parser, and the
   filesystem cache) are passed in as oracle functions, since they are
   third-party libraries rather than code of this repository. -/

namespace WebScripts

/-! ## Page fetcher (spider.py, retrieve_page) -/

/-- The observable outcome of one call to `retrieve_page`:
    the returned text, the list of URLs for which an HTTP GET was issued
    (empty or a singleton), and how many milliseconds were slept
    (`time.sleep(0.2)` is 200 ms). -/
structure FetchTrace where
  content : List Char
  requests : List (List Char)
  sleptMs : Nat
deriving DecidableEq, Repr

/-- URL resolution as performed inside `retrieve_page`
    (spider.py line 43-44): `if not url.startswith('http'): url = base + url`.
    Purely textual: a URL is "absolute" exactly when it starts with the four
    characters `http`. -/
def resolve (url base : List Char) : List Char :=
  if ("http".data).isPrefixOf url then url else base ++ url

/-- spider.py, `retrieve_page(url, base)` (lines 37-55).
    `net` is the oracle for `requests.get`: `some body` when the GET returns,
    `none` when it raises.  The Python code:
    - returns `''` immediately when `url is None` (an empty string is NOT
      `None` and takes the normal path);
    - resolves the URL with `resolve`;
    - on an exception from `requests.get` prints and returns `''` at once,
      so `time.sleep(0.2)` on line 54 is reached only on success. -/
def retrieve_page (net : List Char → Option (List Char))
    (url : Option (List Char)) (base : List Char) : FetchTrace :=
  match url with
  | none => { content := [], requests := [], sleptMs := 0 }
  | some u =>
    match net (resolve u base) with
    | none => { content := [], requests := [resolve u base], sleptMs := 0 }
    | some body => { content := body, requests := [resolve u base], sleptMs := 200 }

/-- A URL "has a scheme" in the sense of generic URI syntax, following the
    wording of the specification (used only to state claims about URL
    resolution): a nonempty alphabetic-led run of scheme characters
    followed by a colon. -/
def isSchemeStart (c : Char) : Bool :=
  ('a' ≤ c && c ≤ 'z') || ('A' ≤ c && c ≤ 'Z')

def isSchemeChar (c : Char) : Bool :=
  isSchemeStart c || ('0' ≤ c && c ≤ '9') || c = '+' || c = '-' || c = '.'

def hasScheme (u : List Char) : Bool :=
  match u with
  | [] => false
  | c :: _ => isSchemeStart c && ((u.dropWhile isSchemeChar).head? == some ':')

end WebScripts

namespace WebScripts

/-! ## Claims about the fetcher -/

/-- Claim C2: the claim states that an empty or absent link target makes
    `retrieve_page` return the empty string immediately, with no network
    request and no base-concatenation.  This fails for the empty string:
    the code only tests `url is None`, so `''` is resolved against `base`
    and fetched.  Concretely, fetching the empty link target with a network
    oracle that returns a page issues one request (for `base` itself) and
    returns that page's content. -/
theorem C2_counterexample :
    (retrieve_page (fun _ => some ("X".data)) (some []) ("http://a.com".data)).requests =
      [("http://a.com".data)] ∧
    (retrieve_page (fun _ => some ("X".data)) (some []) ("http://a.com".data)).content ≠ [] := by
  constructor
  · rfl
  · decide

/-- Claim C2 (amended): only an absent (`None`) link target is returned as
    the empty string immediately, with no network request and no sleep; an
    empty-string target instead resolves to `base` and is fetched. -/
theorem C2_theorem (net : List Char → Option (List Char)) (base : List Char) :
    retrieve_page net none base = { content := [], requests := [], sleptMs := 0 } ∧
    (retrieve_page net (some []) base).requests = [base] := by
  refine ⟨rfl, ?_⟩
  have hres : resolve [] base = base := by
    simp [resolve, List.isPrefixOf]
  simp only [retrieve_page, hres]
  cases h : net base <;> simp [h]

/-- Claim C3: the claim states that every fetch attempt that reached the
    network is followed by a fixed 200 ms sleep, whether the GET succeeded
    or raised.  This fails on the error path: `except` returns `''` on
    line 52, before `time.sleep(0.2)` on line 54.  Concretely, with a
    network oracle that raises, a request is issued but no sleep happens. -/
theorem C3_counterexample :
    (retrieve_page (fun _ => none) (some ("http://a.com".data)) ("http://b.com".data)).requests ≠ [] ∧
    (retrieve_page (fun _ => none) (some ("http://a.com".data)) ("http://b.com".data)).sleptMs = 0 := by
  constructor
  · decide
  · rfl

/-- Claim C3 (amended): the fixed 200 ms sleep is performed exactly when the
    HTTP GET was issued and succeeded; when the GET raises, `retrieve_page`
    returns the empty string without sleeping. -/
theorem C3_theorem (net : List Char → Option (List Char))
    (url : Option (List Char)) (base : List Char) :
    (retrieve_page net url base).sleptMs = 200 ↔
      ∃ u c, (retrieve_page net url base).requests = [u] ∧ net u = some c := by
  cases url with
  | none => simp [retrieve_page]
  | some u =>
    cases h : net (resolve u base) with
    | none =>
      simp only [retrieve_page, h]
      constructor
      · intro habs; exact absurd habs (by decide)
      · rintro ⟨u', c, hu', hnet⟩
        rw [List.cons.injEq] at hu'
        rw [← hu'.1, h] at hnet
        exact absurd hnet (by simp)
    | some body =>
      simp only [retrieve_page, h]
      exact ⟨fun _ => ⟨resolve u base, body, rfl, h⟩, fun _ => by trivial⟩

/-- Claim C4: the claim states that every URL `u` that has a scheme is left
    unchanged by resolution.  This fails for URLs whose scheme does not
    begin with the four characters `http`: the code tests only
    `url.startswith('http')`, so the `ftp://` URL below, which has a
    scheme, is textually prepended with the base. -/
theorem C4_counterexample :
    hasScheme ("ftp://x.com".data) = true ∧
    resolve ("ftp://x.com".data) ("http://a.com".data) ≠ ("ftp://x.com".data) := by
  constructor
  · decide
  · decide

/-- Claim C4 (amended): every URL starting with the `http://` or `https://`
    scheme prefix (in particular every absolute http(s) URL) is left
    unchanged by resolution, for every base. -/
theorem C4_theorem (u base : List Char)
    (h : ("http://".data).isPrefixOf u = true ∨ ("https://".data).isPrefixOf u = true) :
    resolve u base = u := by
  have hp : ("http".data).isPrefixOf u = true := by
    rw [List.isPrefixOf_iff_prefix]
    rcases h with h | h <;> rw [List.isPrefixOf_iff_prefix] at h
    · exact List.IsPrefix.trans (by decide) h
    · exact List.IsPrefix.trans (by decide) h
  simp [resolve, hp]

/-- Witness for C4: the http URL `http://x.com` is not rewritten against the
    base `http://base.org`. -/
theorem C4_witness :
    resolve ("http://x.com".data) ("http://base.org".data) = ("http://x.com".data) :=
  C4_theorem ("http://x.com".data) ("http://base.org".data) (Or.inl (by decide))

/-! ## Port-argument parsing (pscan.py, parse_port) -/

/-- A Python list comprehension `[f(x) for x in xs]` where `f` may raise;
    `none` models the exception propagating out of the comprehension. -/
def pyMap (f : α → Option β) : List α → Option (List β)
  | [] => some []
  | a :: l =>
    match f a, pyMap f l with
    | some b, some bs => some (b :: bs)
    | _, _ => none

/-- Whitespace stripped by Python's `int()` before parsing. -/
def isPySpace (c : Char) : Bool :=
  c = ' ' || c = '\t' || c = '\n' || c = '\r' || c = '\x0b' || c = '\x0c'

def digitVal (c : Char) : Option Nat :=
  if '0' ≤ c && c ≤ '9' then some (c.toNat - ('0').toNat) else none

/-- The value of a nonempty all-digit string. -/
def digitsVal : List Char → Option Nat
  | [] => none
  | [c] => digitVal c
  | c :: cs =>
    match digitVal c, digitsVal cs with
    | some d, some n => some (d * 10 ^ cs.length + n)
    | _, _ => none

/-- Python's `int(s)` on a string: optional surrounding whitespace, an
    optional sign, then a nonempty digit run; `none` models `ValueError`.
    (Underscore digit grouping of Python numeric literals is not modelled;
    the repository never exercises it.) -/
def pyInt (s : List Char) : Option Int :=
  match (((s.dropWhile isPySpace).reverse.dropWhile isPySpace).reverse : List Char) with
  | '+' :: ds => (digitsVal ds).map (fun n => (n : Int))
  | '-' :: ds => (digitsVal ds).map (fun n => -(n : Int))
  | ds => (digitsVal ds).map (fun n => (n : Int))

/-- `re.split(sep, s)` for a single literal character, which coincides with
    Python's `str.split(sep)` for one-character separators: consecutive
    separators yield empty pieces and the result is never the empty list. -/
def splitOnChar (sep : Char) : List Char → List (List Char)
  | [] => [[]]
  | c :: rest =>
    match splitOnChar sep rest with
    | [] => [[c]]
    | w :: ws => if c = sep then [] :: w :: ws else (c :: w) :: ws

/-- The Python value returned by `parse_port`: a list of ints, a
    `range(a, b)` object (a sequence of integers), or a bare int. -/
inductive PyVal where
  | intList : List Int → PyVal
  | intRange : Int → Int → PyVal
  | intVal : Int → PyVal
deriving DecidableEq, Repr

/-- Whether a `PyVal` is a sequence of integers (a list or a range);
    a bare `int` is not. -/
def isIntSeq : PyVal → Bool
  | .intList _ => true
  | .intRange _ _ => true
  | .intVal _ => false

/-- pscan.py, `parse_port(port_args)` (lines 10-33).
    `none` models any runtime error escaping the function (the spec's
    `InvalidPortSpec`): `ValueError` from `int()`, or `IndexError` from
    `port_args[0]` on an empty argument list.
    - more than one argument: `[int(p) for p in port_args]`;
    - one argument containing `-`: `re.split('-', arg)`, then
      `range(int(parts[0]), int(parts[1]))`;
    - one argument without `-`: `int(arg)` — a bare integer.
    The single-argument branch (source lines 26-33) is factored out as
    `parse_port_one`. -/
def parse_range (p0 p1 : List Char) : Option PyVal :=
  match pyInt p0, pyInt p1 with
  | some x, some y => some (PyVal.intRange x y)
  | _, _ => none

def parse_port_one (a : List Char) : Option PyVal :=
  if a.contains '-' then
    match splitOnChar '-' a with
    | p0 :: p1 :: _ => parse_range p0 p1
    | _ => none
  else
    (pyInt a).map PyVal.intVal

def parse_port (port_args : List (List Char)) : Option PyVal :=
  if 1 < port_args.length then
    (pyMap pyInt port_args).map PyVal.intList
  else
    match port_args with
    | [] => none
    | a :: _ => parse_port_one a

/-- Claim C6: the claim states that `parse_port` always either returns a
    sequence of integers or fails.  It fails for a single plain argument:
    `parse_port(['80'])` returns the bare integer `80` (line 33,
    `return int(port_args[0])`), which is not a sequence. -/
theorem C6_counterexample :
    parse_port [("80".data)] = some (PyVal.intVal 80) ∧
    isIntSeq (PyVal.intVal 80) = false := by
  constructor
  · rfl
  · rfl

/-- Claim C6 (amended): `parse_port` either fails (`InvalidPortSpec`) or
    returns a value whose shape is determined by the arguments: a sequence
    of integers (a list, or a range) exactly when there are several
    arguments or the single argument contains `-`; a bare integer for a
    single argument without `-`. -/
theorem C6_theorem (args : List (List Char)) :
    parse_port args = none ∨
    ∃ v, parse_port args = some v ∧
      isIntSeq v = (decide (1 < args.length) ||
        ((args.head?.map (fun a => a.contains '-')).getD false)) := by
  match args with
  | [] => exact Or.inl rfl
  | a :: b :: t =>
    have hlen : 1 < (a :: b :: t).length := by
      simp only [List.length_cons]
      omega
    unfold parse_port
    rw [if_pos hlen]
    cases h : pyMap pyInt (a :: b :: t) with
    | none => exact Or.inl rfl
    | some l =>
      refine Or.inr ⟨PyVal.intList l, rfl, ?_⟩
      have hd : decide (1 < (a :: b :: t).length) = true := decide_eq_true hlen
      rw [hd]
      rfl
  | [a] =>
    have hone : parse_port [a] = parse_port_one a := rfl
    rw [hone]
    unfold parse_port_one
    cases hc : a.contains '-' with
    | true =>
      rw [if_pos rfl]
      cases hs : splitOnChar '-' a with
      | nil => exact Or.inl rfl
      | cons p0 t0 =>
        cases t0 with
        | nil => exact Or.inl rfl
        | cons p1 ps =>
          show parse_range p0 p1 = none ∨ ∃ v, parse_range p0 p1 = some v ∧ isIntSeq v = _
          unfold parse_range
          cases h0 : pyInt p0 with
          | none => exact Or.inl rfl
          | some x =>
            cases h1 : pyInt p1 with
            | none => exact Or.inl rfl
            | some y =>
              refine Or.inr ⟨PyVal.intRange x y, rfl, ?_⟩
              show (true : Bool) = a.contains '-'
              exact hc.symm
    | false =>
      rw [if_neg Bool.false_ne_true]
      cases h : pyInt a with
      | none => exact Or.inl rfl
      | some n =>
        refine Or.inr ⟨PyVal.intVal n, rfl, ?_⟩
        show (false : Bool) = a.contains '-'
        exact hc.symm

/-! ## Frequency analyzer (spider.py, calculate_tf)

A Python `defaultdict(int)` restricted to the operations the source uses is
modelled as an association list in key-insertion order (which is the
iteration order of Python dictionaries): `getA` is `tf[word]` with default
0, `setA` is `tf[word] = c` (updating in place, or appending a fresh key). -/

def getA : List (List Char × Nat) → List Char → Nat
  | [], _ => 0
  | (k, v) :: t, w => if k = w then v else getA t w

def setA : List (List Char × Nat) → List Char → Nat → List (List Char × Nat)
  | [], w, c => [(w, c)]
  | (k, v) :: t, w, c => if k = w then (k, c) :: t else (k, v) :: setA t w c

/-- The first loop of `calculate_tf` (lines 153-158): count occurrences into
    `tf` while tracking the running maximum count `max_freq`. -/
def pass1 : List (List Char × Nat) → Nat → List (List Char) → List (List Char × Nat) × Nat
  | tf, mx, [] => (tf, mx)
  | tf, mx, w :: ws => pass1 (setA tf w (getA tf w + 1)) (if getA tf w + 1 > mx then getA tf w + 1 else mx) ws

/-- Round-half-to-even on an exact rational, the rounding rule of Python 3's
    built-in `round`. -/
def roundHalfEven (q : ℚ) : ℤ :=
  if q - ⌊q⌋ < 1 / 2 then ⌊q⌋
  else if 1 / 2 < q - ⌊q⌋ then ⌊q⌋ + 1
  else if ⌊q⌋ % 2 = 0 then ⌊q⌋ else ⌊q⌋ + 1

/-- Python's `round(q, 3)` on an exact rational. -/
def round3 (q : ℚ) : ℚ := (roundHalfEven (q * 1000) : ℚ) / 1000

/-- spider.py, `calculate_tf(word_list)` (lines 150-163): the first pass
    counts; the second pass (lines 160-161) replaces every count by
    `round(count / max_freq, 3)` in place, iterating the dictionary in
    insertion order.  The division raises `ZeroDivisionError` when
    `max_freq = 0` and the dictionary is nonempty, which the `none` branch
    of the per-item step models; on an empty stream the second loop has
    nothing to iterate, so nothing is ever divided. -/
def calculate_tf (word_list : List (List Char)) : Option (List (List Char × ℚ)) :=
  pyMap
    (fun kv =>
      if (pass1 [] 0 word_list).2 = 0 then none
      else some (kv.1, round3 ((kv.2 : ℚ) / ((pass1 [] 0 word_list).2 : ℚ))))
    (pass1 [] 0 word_list).1

/-- Association lookup in the result table (first match, like a dict). -/
def lookupTF : List (List Char × ℚ) → List Char → Option ℚ
  | [], _ => none
  | (k, v) :: t, w => if k = w then some v else lookupTF t w

/-- Claim C5: on the empty token stream `calculate_tf` returns the empty
    mapping and raises no division error, even though `max_freq` is 0:
    the second loop iterates over an empty dictionary, so the division by
    `max_freq` is never evaluated. -/
theorem C5_theorem :
    calculate_tf [] = some [] ∧ (pass1 [] 0 []).2 = 0 := ⟨rfl, rfl⟩

/-! ### Invariants of the counting pass -/

/-- The keys of the counting dictionary, in insertion order. -/
def keysA (tf : List (List Char × Nat)) : List (List Char) := tf.map Prod.fst

lemma getA_setA_self (tf : List (List Char × Nat)) (w : List Char) (c : Nat) :
    getA (setA tf w c) w = c := by
  induction tf with
  | nil => simp [setA, getA]
  | cons kv t ih =>
    obtain ⟨k, v⟩ := kv
    by_cases h : k = w
    · simp [setA, getA, h]
    · simp [setA, getA, h, ih]

lemma getA_setA_ne (tf : List (List Char × Nat)) (w w' : List Char) (c : Nat)
    (h : w' ≠ w) : getA (setA tf w' c) w = getA tf w := by
  induction tf with
  | nil => simp [setA, getA, h]
  | cons kv t ih =>
    obtain ⟨k, v⟩ := kv
    by_cases hk : k = w'
    · subst hk
      simp [setA, getA, h]
    · simp only [setA, if_neg hk]
      by_cases hw : k = w
      · simp [getA, hw]
      · simp [getA, hw, ih]

lemma setA_cons (a : List Char × Nat) (t : List (List Char × Nat)) (w : List Char) (c : Nat) :
    setA (a :: t) w c = if a.1 = w then (a.1, c) :: t else a :: setA t w c := rfl

lemma mem_keysA_setA (tf : List (List Char × Nat)) (w w' : List Char) (c : Nat) :
    w ∈ keysA (setA tf w' c) ↔ w = w' ∨ w ∈ keysA tf := by
  induction tf with
  | nil => simp [setA, keysA]
  | cons a t ih =>
    rw [setA_cons]
    by_cases hk : a.1 = w'
    · rw [if_pos hk]
      subst hk
      simp only [keysA, List.map_cons, List.mem_cons]
      tauto
    · rw [if_neg hk]
      simp only [keysA, List.map_cons, List.mem_cons] at ih ⊢
      rw [ih]
      tauto

lemma pass1_getA (ws : List (List Char)) (tf : List (List Char × Nat)) (mx : Nat)
    (w : List Char) : getA (pass1 tf mx ws).1 w = getA tf w + ws.count w := by
  induction ws generalizing tf mx with
  | nil => simp [pass1]
  | cons w' rest ih =>
    simp only [pass1]
    rw [ih]
    by_cases h : w' = w
    · subst h
      rw [getA_setA_self]
      simp [List.count_cons]
      omega
    · rw [getA_setA_ne _ _ _ _ h]
      simp [List.count_cons, h]

lemma pass1_mem (ws : List (List Char)) (tf : List (List Char × Nat)) (mx : Nat)
    (w : List Char) : w ∈ keysA (pass1 tf mx ws).1 ↔ w ∈ keysA tf ∨ w ∈ ws := by
  induction ws generalizing tf mx with
  | nil => simp [pass1]
  | cons w' rest ih =>
    simp only [pass1]
    rw [ih, mem_keysA_setA]
    simp [List.mem_cons]
    tauto

lemma pass1_ub (ws : List (List Char)) (tf : List (List Char × Nat)) (mx : Nat)
    (h : ∀ w, getA tf w ≤ mx) : ∀ w, getA (pass1 tf mx ws).1 w ≤ (pass1 tf mx ws).2 := by
  induction ws generalizing tf mx with
  | nil => exact h
  | cons w' rest ih =>
    simp only [pass1]
    apply ih
    intro w
    by_cases hw : w' = w
    · subst hw
      rw [getA_setA_self]
      split <;> omega
    · rw [getA_setA_ne _ _ _ _ hw]
      have := h w
      split <;> omega

lemma pass1_le (ws : List (List Char)) (tf : List (List Char × Nat)) (mx k : Nat)
    (hmx : mx ≤ k) (h : ∀ w, getA tf w + ws.count w ≤ k) : (pass1 tf mx ws).2 ≤ k := by
  induction ws generalizing tf mx with
  | nil => exact hmx
  | cons w' rest ih =>
    simp only [pass1]
    have hw' := h w'
    rw [List.count_cons_self] at hw'
    refine ih (setA tf w' (getA tf w' + 1)) _ ?_ ?_
    · split <;> omega
    · intro w
      by_cases hw : w' = w
      · subst hw
        rw [getA_setA_self]
        omega
      · rw [getA_setA_ne _ _ _ _ hw]
        have h2 := h w
        rw [List.count_cons_of_ne (fun he => hw he.symm)] at h2
        exact h2

/-- `pyMap` of a function that never raises is a plain `map`. -/
lemma pyMap_congr_some (f : α → Option β) (g : α → β) (l : List α)
    (h : ∀ a ∈ l, f a = some (g a)) : pyMap f l = some (l.map g) := by
  induction l with
  | nil => rfl
  | cons a t ih =>
    simp only [pyMap, h a (List.mem_cons_self a t), ih (fun x hx => h x (List.mem_cons_of_mem a hx)),
      List.map_cons]

lemma lookupTF_cons (a : List Char × ℚ) (t : List (List Char × ℚ)) (w : List Char) :
    lookupTF (a :: t) w = if a.1 = w then some a.2 else lookupTF t w := rfl

lemma getA_cons (a : List Char × Nat) (t : List (List Char × Nat)) (w : List Char) :
    getA (a :: t) w = if a.1 = w then a.2 else getA t w := rfl

lemma lookupTF_map (tf : List (List Char × Nat)) (w : List Char)
    (f : List Char × Nat → List Char × ℚ) (hf : ∀ kv, (f kv).1 = kv.1)
    (h : w ∈ keysA tf) :
    lookupTF (tf.map f) w = some ((f (w, getA tf w)).2) := by
  induction tf with
  | nil => simp [keysA] at h
  | cons a t ih =>
    rw [List.map_cons, lookupTF_cons, getA_cons, hf a]
    by_cases hk : a.1 = w
    · rw [if_pos hk, if_pos hk]
      subst hk
      rfl
    · rw [if_neg hk, if_neg hk]
      apply ih
      simp only [keysA, List.map_cons, List.mem_cons] at h
      rcases h with h | h
      · exact absurd h.symm hk
      · exact h

/-! ### Rounding bounds -/

lemma roundHalfEven_le_ceil (q : ℚ) : roundHalfEven q ≤ ⌈q⌉ := by
  unfold roundHalfEven
  have hfc : ⌊q⌋ ≤ ⌈q⌉ := Int.floor_le_ceil q
  split_ifs with h1 h2 h3
  · exact hfc
  all_goals {
    have hlt : (⌊q⌋ : ℚ) < q := by
      have := not_lt.mp h1
      linarith
    have := Int.lt_ceil.mpr hlt
    omega
  }

lemma round3_le_one (q : ℚ) (h : q ≤ 1) : round3 q ≤ 1 := by
  unfold round3
  rw [div_le_one (by norm_num : (0 : ℚ) < 1000)]
  have h1 : q * 1000 ≤ 1000 := by nlinarith
  have h2 : ⌈q * 1000⌉ ≤ 1000 := Int.ceil_le.mpr (by exact_mod_cast h1)
  have h3 : roundHalfEven (q * 1000) ≤ 1000 := le_trans (roundHalfEven_le_ceil _) h2
  exact_mod_cast h3

lemma round3_one : round3 1 = 1 := by
  norm_num [round3, roundHalfEven]

/-- Claim C7: when one token `w₀` attains the maximum occurrence count `k`
    and every other token of the stream occurs fewer than `k` times,
    `calculate_tf` assigns `w₀` the score `1.000`, and every other token `w`
    of the stream the score `round(count(w)/k, 3)`, which is at most
    `1.000`. -/
theorem C7_theorem (ws : List (List Char)) (w₀ : List Char) (k : Nat)
    (hmem : w₀ ∈ ws) (hk : ws.count w₀ = k)
    (hmax : ∀ w ∈ ws, w ≠ w₀ → ws.count w < k) :
    ∃ t, calculate_tf ws = some t ∧
      lookupTF t w₀ = some 1 ∧
      ∀ w ∈ ws, w ≠ w₀ →
        lookupTF t w = some (round3 ((ws.count w : ℚ) / (k : ℚ))) ∧
        round3 ((ws.count w : ℚ) / (k : ℚ)) ≤ 1 := by
  have kpos : 0 < k := hk ▸ List.count_pos_iff.mpr hmem
  have hmx : (pass1 [] 0 ws).2 = k := by
    apply le_antisymm
    · apply pass1_le _ _ _ _ (Nat.zero_le k)
      intro w
      simp only [getA, Nat.zero_add]
      by_cases hw : w = w₀
      · subst hw
        omega
      · by_cases hmem' : w ∈ ws
        · exact le_of_lt (hmax w hmem' hw)
        · rw [List.count_eq_zero_of_not_mem hmem']
          omega
    · have hub := pass1_ub ws [] 0 (fun w => by simp [getA]) w₀
      rw [pass1_getA] at hub
      simpa [getA, hk] using hub
  have hcalc : calculate_tf ws =
      some ((pass1 [] 0 ws).1.map (fun kv => (kv.1, round3 ((kv.2 : ℚ) / (k : ℚ))))) := by
    unfold calculate_tf
    apply pyMap_congr_some
    intro kv _
    rw [hmx, if_neg (Nat.pos_iff_ne_zero.mp kpos)]
  refine ⟨_, hcalc, ?_, ?_⟩
  · rw [lookupTF_map _ _ _ (fun kv => rfl) ((pass1_mem ws [] 0 w₀).mpr (Or.inr hmem))]
    rw [pass1_getA]
    simp only [getA, Nat.zero_add, hk]
    rw [div_self (by exact_mod_cast Nat.pos_iff_ne_zero.mp kpos : (k : ℚ) ≠ 0)]
    rw [round3_one]
  · intro w hwmem hwne
    refine ⟨?_, ?_⟩
    · rw [lookupTF_map _ _ _ (fun kv => rfl) ((pass1_mem ws [] 0 w).mpr (Or.inr hwmem))]
      rw [pass1_getA]
      simp [getA]
    · apply round3_le_one
      rw [div_le_one (by exact_mod_cast kpos : (0 : ℚ) < k)]
      exact_mod_cast le_of_lt (hmax w hwmem hwne)

/-- Witness for C7: in the stream `["aa", "aa", "bb"]` the token `aa`
    attains the maximum count 2, gets score 1, and `bb` gets
    `round(1/2, 3) = 0.5 ≤ 1`. -/
theorem C7_witness :
    ∃ t, calculate_tf [("aa".data), ("aa".data), ("bb".data)] = some t ∧
      lookupTF t ("aa".data) = some 1 ∧
      ∀ w ∈ [("aa".data), ("aa".data), ("bb".data)], w ≠ ("aa".data) →
        lookupTF t w =
          some (round3 ((List.count w [("aa".data), ("aa".data), ("bb".data)] : ℚ) / ((2 : ℕ) : ℚ))) ∧
        round3 ((List.count w [("aa".data), ("aa".data), ("bb".data)] : ℚ) / ((2 : ℕ) : ℚ)) ≤ 1 :=
  C7_theorem [("aa".data), ("aa".data), ("bb".data)] ("aa".data) 2
    (by decide) (by decide) (by decide)

/-! ## Word normalizer (spider.py, create_word_list) -/

/-- Python's `string.punctuation`. -/
def punctuation : List Char :=
  ("!\"#$%&\x27()*+,-./:;<=>?@[\\]^_`\x7b|\x7d~").data

/-- The ASCII uppercase-to-lowercase table. -/
def upperLower : List (Char × Char) :=
  [('A', 'a'), ('B', 'b'), ('C', 'c'), ('D', 'd'), ('E', 'e'), ('F', 'f'),
   ('G', 'g'), ('H', 'h'), ('I', 'i'), ('J', 'j'), ('K', 'k'), ('L', 'l'),
   ('M', 'm'), ('N', 'n'), ('O', 'o'), ('P', 'p'), ('Q', 'q'), ('R', 'r'),
   ('S', 's'), ('T', 't'), ('U', 'u'), ('V', 'v'), ('W', 'w'), ('X', 'x'),
   ('Y', 'y'), ('Z', 'z')]

/-- Python's `str.lower()`, modelled per character on the ASCII range, which
    is the range the repository's texts exercise; non-ASCII case mappings
    are not modelled. -/
def pyLower (c : Char) : Char :=
  (((upperLower.find? (fun p => p.1 == c)).map Prod.snd).getD c)

/-- spider.py, `create_word_list(elements, ignored_words)` (lines 76-108):
    split every element on single spaces and concatenate (lines 95-99),
    strip every `string.punctuation` character from each word (line 101),
    lowercase (line 104), and drop words of length ≤ 1 or in the ignore set
    (line 106). -/
def create_word_list (elements : List (List Char)) (ignored_words : List (List Char)) :
    List (List Char) :=
  (((elements.map (splitOnChar ' ')).flatten.map
      (fun word => word.filter (fun c => !(punctuation.contains c)))).map
      (fun w => w.map pyLower)).filter
    (fun w => decide (1 < w.length) && !(ignored_words.contains w))

/-! ### The normalizer output is a fixed point of every stage -/

lemma splitOnChar_ne_nil (sep : Char) (l : List Char) : splitOnChar sep l ≠ [] := by
  cases l with
  | nil => simp [splitOnChar]
  | cons c rest =>
    simp only [splitOnChar]
    cases splitOnChar sep rest with
    | nil => simp
    | cons w ws =>
      by_cases h : c = sep <;> simp [h]

lemma splitOnChar_cons (sep c : Char) (rest w0 : List Char) (ws : List (List Char))
    (hsp : splitOnChar sep rest = w0 :: ws) :
    splitOnChar sep (c :: rest) = if c = sep then [] :: w0 :: ws else (c :: w0) :: ws := by
  rw [splitOnChar, hsp]

lemma splitOnChar_no_sep (sep : Char) (l : List Char) :
    ∀ w ∈ splitOnChar sep l, sep ∉ w := by
  induction l with
  | nil =>
    intro w hw
    simp only [splitOnChar, List.mem_singleton] at hw
    simp [hw]
  | cons c rest ih =>
    intro w hw
    cases hsp : splitOnChar sep rest with
    | nil => exact absurd hsp (splitOnChar_ne_nil sep rest)
    | cons w0 ws =>
      rw [splitOnChar_cons sep c rest w0 ws hsp] at hw
      by_cases h : c = sep
      · rw [if_pos h] at hw
        rcases List.mem_cons.mp hw with hw | hw
        · simp [hw]
        · exact ih w (hsp ▸ hw)
      · rw [if_neg h] at hw
        rcases List.mem_cons.mp hw with hw | hw
        · subst hw
          intro hmem
          rcases List.mem_cons.mp hmem with hmem | hmem
          · exact h hmem.symm
          · exact ih w0 (hsp ▸ List.mem_cons_self w0 ws) hmem
        · exact ih w (hsp ▸ List.mem_cons_of_mem w0 hw)

lemma splitOnChar_eq_single (sep : Char) (w : List Char) (h : sep ∉ w) :
    splitOnChar sep w = [w] := by
  induction w with
  | nil => rfl
  | cons c rest ih =>
    have hc : c ≠ sep := fun he => h (he ▸ List.mem_cons_self c rest)
    have hrest : sep ∉ rest := fun hm => h (List.mem_cons_of_mem c hm)
    simp only [splitOnChar, ih hrest]
    rw [if_neg hc]

/-- Every ASCII lowercase image is fixed by `pyLower`, is not a space, and
    is not a punctuation character. -/
lemma upperLower_snd_props :
    ∀ p ∈ upperLower, pyLower p.2 = p.2 ∧ p.2 ≠ ' ' ∧ punctuation.contains p.2 = false := by
  decide

lemma pyLower_cases (c : Char) :
    pyLower c = c ∨ ∃ p ∈ upperLower, pyLower c = p.2 := by
  unfold pyLower
  cases hf : upperLower.find? (fun p => p.1 == c) with
  | none => simp
  | some p =>
    right
    exact ⟨p, List.mem_of_find?_eq_some hf, by simp⟩

lemma pyLower_idem (c : Char) : pyLower (pyLower c) = pyLower c := by
  rcases pyLower_cases c with h | ⟨p, hp, h⟩
  · rw [h, h]
  · rw [h, (upperLower_snd_props p hp).1]

lemma pyLower_ne_space (c : Char) (h : c ≠ ' ') : pyLower c ≠ ' ' := by
  rcases pyLower_cases c with hc | ⟨p, hp, hc⟩
  · rw [hc]; exact h
  · rw [hc]; exact (upperLower_snd_props p hp).2.1

lemma pyLower_not_punct (c : Char) (h : punctuation.contains c = false) :
    punctuation.contains (pyLower c) = false := by
  rcases pyLower_cases c with hc | ⟨p, hp, hc⟩
  · rw [hc]; exact h
  · rw [hc]; exact (upperLower_snd_props p hp).2.2

lemma map_eq_self (l : List α) (f : α → α) (h : ∀ a ∈ l, f a = a) : l.map f = l := by
  induction l with
  | nil => rfl
  | cons a t ih =>
    rw [List.map_cons, h a (List.mem_cons_self a t),
      ih (fun x hx => h x (List.mem_cons_of_mem a hx))]

lemma flatten_singletons (l : List (List Char)) : (l.map (fun a => [a])).flatten = l := by
  induction l with
  | nil => rfl
  | cons a t ih => simp [ih]

/-- Every word produced by `create_word_list` is space-free,
    punctuation-free, fixed under lowercasing, and passes the final
    length/ignore filter. -/
lemma create_word_list_mem (elements ig : List (List Char)) :
    ∀ w ∈ create_word_list elements ig,
      (' ' ∉ w) ∧ (∀ c ∈ w, punctuation.contains c = false) ∧
      w.map pyLower = w ∧
      (decide (1 < w.length) && !(ig.contains w)) = true := by
  intro w hw
  unfold create_word_list at hw
  rw [List.mem_filter] at hw
  obtain ⟨hw, hpred⟩ := hw
  rw [List.mem_map] at hw
  obtain ⟨v, hv, rfl⟩ := hw
  rw [List.mem_map] at hv
  obtain ⟨u, hu, rfl⟩ := hv
  rw [List.mem_flatten] at hu
  obtain ⟨parts, hparts, hu⟩ := hu
  rw [List.mem_map] at hparts
  obtain ⟨el, _, rfl⟩ := hparts
  have hu_nospace : ' ' ∉ u := splitOnChar_no_sep ' ' el u hu
  refine ⟨?_, ?_, ?_, hpred⟩
  · intro hsp
    rw [List.mem_map] at hsp
    obtain ⟨c, hc, hceq⟩ := hsp
    have hcu : c ∈ u := List.mem_of_mem_filter hc
    exact pyLower_ne_space c (fun he => hu_nospace (he ▸ hcu)) hceq
  · intro c hc
    rw [List.mem_map] at hc
    obtain ⟨c', hc', rfl⟩ := hc
    have h' := List.of_mem_filter hc'
    apply pyLower_not_punct
    simpa using h'
  · rw [List.map_map]
    exact List.map_congr_left (fun c _ => pyLower_idem c)

/-- `create_word_list` is idempotent on its own output, for any input. -/
lemma create_word_list_idem (elements ig : List (List Char)) :
    create_word_list (create_word_list elements ig) ig = create_word_list elements ig := by
  have hmem := create_word_list_mem elements ig
  set out := create_word_list elements ig with hout
  rw [create_word_list]
  have e1 : out.map (splitOnChar ' ') = out.map (fun w => [w]) :=
    List.map_congr_left (fun w hw => splitOnChar_eq_single ' ' w (hmem w hw).1)
  rw [e1, flatten_singletons]
  have e2 : out.map (fun word => word.filter (fun c => !(punctuation.contains c))) = out :=
    map_eq_self _ _ (fun w hw =>
      List.filter_eq_self.mpr (fun c hc => by
        rw [Bool.not_eq_true']
        exact (hmem w hw).2.1 c hc))
  rw [e2]
  have e3 : out.map (fun w => w.map pyLower) = out :=
    map_eq_self _ _ (fun w hw => (hmem w hw).2.2.1)
  rw [e3]
  exact List.filter_eq_self.mpr (fun w hw => (hmem w hw).2.2.2)

/-- Claim C8: on token lists that are already lowercase, punctuation-free,
    of length > 1 and outside the ignore set, `create_word_list` is
    idempotent: normalizing its own output changes nothing.  (The proof
    factors through `create_word_list_idem`: the normalizer is in fact
    idempotent on its own output for every input.) -/
theorem C8_theorem (tokens ignore : List (List Char))
    (_hlow : ∀ t ∈ tokens, t.map pyLower = t)
    (_hpunct : ∀ t ∈ tokens, ∀ c ∈ t, punctuation.contains c = false)
    (_hlen : ∀ t ∈ tokens, 1 < t.length)
    (_hig : ∀ t ∈ tokens, t ∉ ignore) :
    create_word_list (create_word_list tokens ignore) ignore =
      create_word_list tokens ignore :=
  create_word_list_idem tokens ignore

/-- Witness for C8: the already-normalized token list `["ab", "cd"]` with an
    empty ignore set. -/
theorem C8_witness :
    create_word_list (create_word_list [("ab".data), ("cd".data)] []) [] =
      create_word_list [("ab".data), ("cd".data)] [] :=
  C8_theorem [("ab".data), ("cd".data)] []
    (by decide) (by decide) (by decide) (by decide)

/-! ## Domain extraction (spider.py, get_domain)

`get_domain` evaluates `re.match(r'https?://(www\.)?(.+)\..+', url)` and
returns group 2; when the pattern does not match, `m` is `None` and
`m.group(2)` raises (the spec's `DomainParseError`), modelled by `none`.

The regular expression is embedded by its matching semantics:
- `https?://` consumes an `http://` or `https://` prefix (the two cases are
  mutually exclusive, so no backtracking arises between them);
- `(www\.)?` greedily consumes a literal `www.` when present, falling back
  to the empty match when the rest of the pattern cannot match after it;
- `(.+)\..+` matches when some index `i` of the remainder holds `'.'`,
  preceded by at least one character, none of them a newline (`.` does not
  match newlines), and followed by at least one non-newline character;
  greedy matching makes group 2 the remainder up to the LAST such index. -/

/-- Position `i` of `l` can be the `\.` of `(.+)\..+`: `l[i] = '.'`, at
    least one character before it, all of them non-newline, and a
    non-newline character right after it. -/
def validDot (l : List Char) (i : Nat) : Bool :=
  decide (1 ≤ i) && (l[i]? == some '.') &&
    (l.take i).all (fun c => c != '\n') &&
    ((l[i + 1]?).elim false (fun c => c != '\n'))

/-- Match `(.+)\..+` against `l` (anchored at the start, free at the end),
    returning the greedy group 1: the prefix before the last valid dot. -/
def matchBody (l : List Char) : Option (List Char) :=
  (((List.range l.length).filter (fun i => validDot l i)).getLast?).map
    (fun i => l.take i)

/-- Consume the `https?://` prefix of the pattern. -/
def stripScheme (url : List Char) : Option (List Char) :=
  if ("https://".data).isPrefixOf url then some (url.drop 8)
  else if ("http://".data).isPrefixOf url then some (url.drop 7)
  else none

/-- spider.py, `get_domain(url)` (lines 111-115): `none` models the
    `DomainParseError` raised via `m.group(2)` when the regex does not
    match.  The `(www\.)?` group first tries to consume `www.`; if the rest
    of the pattern fails after it, the regex engine backtracks and retries
    with the group empty. -/
def get_domain (url : List Char) : Option (List Char) :=
  match stripScheme url with
  | none => none
  | some r =>
    if ("www.".data).isPrefixOf r then
      match matchBody (r.drop 4) with
      | some g => some g
      | none => matchBody r
    else matchBody r

/-- The cache-file name `'{domain}.json'.format(domain=get_domain(url))`
    computed by `follow_links` (line 121); `none` when `get_domain`
    raises. -/
def cacheKey (url : List Char) : Option (List Char) :=
  (get_domain url).map (fun d => d ++ (".json").data)

/-- A URL assembled from a host and a path, as used to state the
    cache-keying claims: `http://` followed by the host, followed by the
    path. -/
def urlOf (host path : List Char) : List Char :=
  ("http://".data) ++ host ++ path

/-! ## Crawl orchestrator (spider.py, follow_links) -/

/-- spider.py, `follow_links(url)` (lines 118-138).  Oracles: `cache` maps
    a cache-file name to its deserialized page list when the file exists
    (`os.path.isfile` + `json.load`); `net` is the HTTP client; `linksOf`
    is BeautifulSoup's `get_links` (the `href` of each anchor, `none` for a
    missing attribute).  The result pairs the returned page list (`none`
    models the `DomainParseError` escaping from `get_domain`) with the list
    of URLs requested over the network, in order.  The `json.dump` write of
    the fresh page set is a side effect with no bearing on the claims and
    is not recorded. -/
def follow_links (cache : List Char → Option (List (List Char)))
    (net : List Char → Option (List Char))
    (linksOf : List Char → List (Option (List Char)))
    (url : List Char) : Option (List (List Char)) × List (List Char) :=
  match cacheKey url with
  | none => (none, [])
  | some fname =>
    match cache fname with
    | some pages => (some pages, [])
    | none =>
      let seed := retrieve_page net (some url) url
      let traces := (linksOf seed.content).map (fun l => retrieve_page net l url)
      (some (traces.map FetchTrace.content),
        seed.requests ++ (traces.map FetchTrace.requests).flatten)

/-! ### Scheme stripping and the no-dot case -/

lemma stripScheme_http (r : List Char) : stripScheme (("http://".data) ++ r) = some r := by
  have h1 : ("https://".data).isPrefixOf (("http://".data) ++ r) = false := by rfl
  have h2 : ("http://".data).isPrefixOf (("http://".data) ++ r) = true := by
    simp [List.isPrefixOf]
  have h3 : List.drop 7 (("http://".data) ++ r) = r := by rfl
  unfold stripScheme
  rw [h1, h2]
  simp [h3]

lemma stripScheme_https (r : List Char) : stripScheme (("https://".data) ++ r) = some r := by
  have h1 : ("https://".data).isPrefixOf (("https://".data) ++ r) = true := by
    simp [List.isPrefixOf]
  have h2 : List.drop 8 (("https://".data) ++ r) = r := by rfl
  unfold stripScheme
  rw [h1]
  simp [h2]

/-- Evaluate `get_domain` once the scheme has been stripped. -/
lemma get_domain_eq (url r : List Char) (h : stripScheme url = some r) :
    get_domain url =
      if ("www.".data).isPrefixOf r then
        match matchBody (r.drop 4) with
        | some g => some g
        | none => matchBody r
      else matchBody r := by
  unfold get_domain
  rw [h]

lemma stripScheme_none (url : List Char)
    (h1 : ("http://".data).isPrefixOf url = false)
    (h2 : ("https://".data).isPrefixOf url = false) : stripScheme url = none := by
  unfold stripScheme
  rw [h1, h2]
  simp

lemma validDot_dot (l : List Char) (i : Nat) (h : validDot l i = true) :
    l[i]? = some '.' := by
  unfold validDot at h
  simp only [Bool.and_eq_true] at h
  exact beq_iff_eq.mp h.1.1.2

lemma matchBody_eq_none (l : List Char) (hd : '.' ∉ l) : matchBody l = none := by
  unfold matchBody
  have hfil : (List.range l.length).filter (fun i => validDot l i) = [] := by
    rw [List.filter_eq_nil_iff]
    intro i _ hv
    exact hd (List.getElem?_mem (validDot_dot l i hv))
  rw [hfil]
  rfl

/-- Claim C9: a seed URL that does not start with `http://` or `https://`
    makes `get_domain` fail, so `follow_links` raises `DomainParseError`
    while computing the cache key, before any network request is issued
    (the request log of the run is empty). -/
theorem C9_theorem (cache : List Char → Option (List (List Char)))
    (net : List Char → Option (List Char))
    (linksOf : List Char → List (Option (List Char)))
    (url : List Char)
    (h1 : ¬ ("http://".data).isPrefixOf url = true)
    (h2 : ¬ ("https://".data).isPrefixOf url = true) :
    get_domain url = none ∧ follow_links cache net linksOf url = (none, []) := by
  have hs : stripScheme url = none :=
    stripScheme_none url (Bool.eq_false_iff.mpr h1) (Bool.eq_false_iff.mpr h2)
  have hgd : get_domain url = none := by
    simp [get_domain, hs]
  refine ⟨hgd, ?_⟩
  simp [follow_links, cacheKey, hgd]

/-- Witness for C9: the malformed seed URL `example.com` (no scheme). -/
theorem C9_witness :
    get_domain ("example.com".data) = none ∧
    follow_links (fun _ => none) (fun _ => none) (fun _ => []) ("example.com".data) =
      (none, []) :=
  C9_theorem (fun _ => none) (fun _ => none) (fun _ => []) ("example.com".data)
    (by decide) (by decide)

/-- Claim C10: the claim asserts that `get_domain` fails on those URLs with
    a well-formed scheme whose part after the scheme and the optional `www.`
    contains no dot.  The existence part is right (`http://localhost`
    fails), but the characterization is not: for `http://www.ab` the part
    after scheme and `www.` is `ab`, dot-free, yet the regex backtracks out
    of the `(www\.)?` group and extracts the "domain" `www`. -/
theorem C10_counterexample :
    ("http://www.ab".data) = ("http://".data) ++ ("www.".data) ++ ("ab".data) ∧
    ('.' ∉ ("ab".data)) ∧
    get_domain ("http://www.ab".data) = some ("www".data) := by
  refine ⟨rfl, by decide, ?_⟩
  decide

/-- Claim C10 (amended): there exist URLs starting with `http://` or
    `https://` on which `get_domain` still fails, namely every URL whose
    whole part after the scheme contains no dot (e.g. `http://localhost`):
    a well-formed scheme prefix alone does not guarantee a cache key. -/
theorem C10_theorem (rest : List Char) (hd : '.' ∉ rest) :
    get_domain (("http://".data) ++ rest) = none ∧
    get_domain (("https://".data) ++ rest) = none := by
  have hww : ("www.".data).isPrefixOf rest = false := by
    cases h : ("www.".data).isPrefixOf rest
    · rfl
    · exfalso
      have hp : ("www.".data) <+: rest := List.isPrefixOf_iff_prefix.mp h
      exact hd (hp.subset (by decide))
  constructor
  · rw [get_domain_eq _ rest (stripScheme_http rest), hww]
    simp [matchBody_eq_none rest hd]
  · rw [get_domain_eq _ rest (stripScheme_https rest), hww]
    simp [matchBody_eq_none rest hd]

/-- Witness for C10: `http://localhost` and `https://localhost` have a
    well-formed scheme prefix but no cache key. -/
theorem C10_witness :
    get_domain (("http://".data) ++ ("localhost".data)) = none ∧
    get_domain (("https://".data) ++ ("localhost".data)) = none :=
  C10_theorem ("localhost".data) (by decide)

/-! ### The cache key and the URL's path -/

lemma filter_range_high (f : Nat → Bool) (m n : Nat) (hmn : m ≤ n)
    (hf : ∀ i, m ≤ i → f i = false) :
    (List.range n).filter f = (List.range m).filter f := by
  induction n with
  | zero =>
    rw [Nat.le_zero.mp hmn]
  | succ n ih =>
    rcases Nat.lt_or_ge m (n + 1) with h | h
    · have hmn' : m ≤ n := Nat.lt_succ_iff.mp h
      rw [List.range_succ, List.filter_append, ih hmn']
      simp [List.filter_cons, hf n hmn']
    · rw [Nat.le_antisymm hmn h]

lemma validDot_append_ge (X p : List Char) (hd : '.' ∉ p) (i : Nat)
    (hi : X.length ≤ i) : validDot (X ++ p) i = false := by
  have h : ¬ ((X ++ p)[i]? = some '.') := by
    intro hc
    rw [List.getElem?_append_right hi] at hc
    exact hd (List.getElem?_mem hc)
  have h2 : ((X ++ p)[i]? == some '.') = false := beq_eq_false_iff_ne.mpr h
  unfold validDot
  rw [h2]
  simp

lemma validDot_append_lt (X p : List Char) (hd : '.' ∉ p) (i : Nat)
    (h : validDot (X ++ p) i = true) : i < X.length := by
  by_contra hge
  rw [validDot_append_ge X p hd i (Nat.le_of_not_lt hge)] at h
  exact Bool.false_ne_true h

lemma validDot_append_congr (X p1 p2 : List Char)
    (h1 : p1 ≠ []) (h2 : p2 ≠ []) (n1 : '\n' ∉ p1) (n2 : '\n' ∉ p2)
    (i : Nat) (hi : i < X.length) :
    validDot (X ++ p1) i = validDot (X ++ p2) i := by
  have e2 : (X ++ p1)[i]? = (X ++ p2)[i]? := by
    rw [List.getElem?_append_left hi, List.getElem?_append_left hi]
  have e3 : (X ++ p1).take i = (X ++ p2).take i := by
    rw [List.take_append_of_le_length (Nat.le_of_lt hi),
      List.take_append_of_le_length (Nat.le_of_lt hi)]
  have e4 : ((X ++ p1)[i + 1]?).elim false (fun c => c != '\n') =
      ((X ++ p2)[i + 1]?).elim false (fun c => c != '\n') := by
    rcases Nat.lt_or_ge (i + 1) X.length with h | h
    · rw [List.getElem?_append_left h, List.getElem?_append_left h]
    · rw [List.getElem?_append_right h, List.getElem?_append_right h]
      cases p1 with
      | nil => exact absurd rfl h1
      | cons a t1 =>
        cases p2 with
        | nil => exact absurd rfl h2
        | cons b t2 =>
          have hieq : i + 1 - X.length = 0 := by omega
          rw [hieq]
          have ha : (a != '\n') = true :=
            bne_iff_ne.mpr (fun he => n1 (he ▸ List.mem_cons_self a t1))
          have hb : (b != '\n') = true :=
            bne_iff_ne.mpr (fun he => n2 (he ▸ List.mem_cons_self b t2))
          simp [ha, hb]
  unfold validDot
  rw [e2, e3, e4]

lemma matchBody_append_congr (X p1 p2 : List Char)
    (h1 : p1 ≠ []) (h2 : p2 ≠ []) (d1 : '.' ∉ p1) (d2 : '.' ∉ p2)
    (n1 : '\n' ∉ p1) (n2 : '\n' ∉ p2) :
    matchBody (X ++ p1) = matchBody (X ++ p2) := by
  have hfil : (List.range (X ++ p1).length).filter (fun i => validDot (X ++ p1) i) =
      (List.range (X ++ p2).length).filter (fun i => validDot (X ++ p2) i) := by
    rw [filter_range_high _ X.length _
        (by rw [List.length_append]; omega)
        (fun i hi => validDot_append_ge X p1 d1 i hi),
      filter_range_high _ X.length _
        (by rw [List.length_append]; omega)
        (fun i hi => validDot_append_ge X p2 d2 i hi)]
    exact List.filter_congr
      (fun i hi => validDot_append_congr X p1 p2 h1 h2 n1 n2 i (List.mem_range.mp hi))
  unfold matchBody
  rw [hfil]
  cases hl : ((List.range (X ++ p2).length).filter (fun i => validDot (X ++ p2) i)).getLast? with
  | none => rfl
  | some i =>
    have hmem : i ∈ (List.range (X ++ p2).length).filter (fun i => validDot (X ++ p2) i) :=
      List.mem_of_getLast?_eq_some hl
    have hv : validDot (X ++ p2) i = true := List.of_mem_filter hmem
    have hlt : i < X.length := validDot_append_lt X p2 d2 i hv
    simp only [Option.map_some']
    rw [List.take_append_of_le_length (Nat.le_of_lt hlt),
      List.take_append_of_le_length (Nat.le_of_lt hlt)]

lemma www_isPrefixOf_append (host p : List Char) (_hp : p ≠ []) (hd : '.' ∉ p) :
    ("www.".data).isPrefixOf (host ++ p) = ("www.".data).isPrefixOf host := by
  rcases Nat.lt_or_ge host.length 4 with hlen | hlen
  · have hR : ("www.".data).isPrefixOf host = false := by
      cases hc : ("www.".data).isPrefixOf host
      · rfl
      · have := (List.isPrefixOf_iff_prefix.mp hc).length_le
        simp at this
        omega
    have hL : ("www.".data).isPrefixOf (host ++ p) = false := by
      cases hc : ("www.".data).isPrefixOf (host ++ p)
      · rfl
      · exfalso
        have hpre := List.isPrefixOf_iff_prefix.mp hc
        have htake : ("www.".data) = (host ++ p).take 4 := List.prefix_iff_eq_take.mp hpre
        have hdot : (host ++ p)[3]? = some '.' := by
          have h3 : ((host ++ p).take 4)[3]? = (host ++ p)[3]? :=
            List.getElem?_take_of_lt (by omega)
          rw [← h3, ← htake]
          rfl
        rw [List.getElem?_append_right (by omega)] at hdot
        exact hd (List.getElem?_mem hdot)
    rw [hR, hL]
  · have htake : (host ++ p).take 4 = host.take 4 := List.take_append_of_le_length hlen
    rw [Bool.eq_iff_iff]
    rw [List.isPrefixOf_iff_prefix, List.isPrefixOf_iff_prefix]
    rw [List.prefix_iff_eq_take, List.prefix_iff_eq_take]
    have hl4 : ("www.".data).length = 4 := rfl
    rw [hl4, htake]

/-- Claim C1: the claim states that two URLs sharing a domain but differing
    in path always map to the same cache-file name.  This fails when a path
    contains a dot: the greedy `(.+)` of the domain regex swallows
    everything up to the LAST dot of the URL, so the path leaks into the
    cache key.  `http://example.com/a` gets key `example.json`, while
    `http://example.com/b.c` on the same domain gets key
    `example.com/b.json`. -/
theorem C1_counterexample :
    ("/a".data) ≠ ("/b.c".data) ∧
    cacheKey (urlOf ("example.com".data) ("/a".data)) = some ("example.json".data) ∧
    cacheKey (urlOf ("example.com".data) ("/b.c".data)) = some ("example.com/b.json".data) ∧
    cacheKey (urlOf ("example.com".data) ("/a".data)) ≠
      cacheKey (urlOf ("example.com".data) ("/b.c".data)) := by
  refine ⟨by decide, by decide, by decide, ?_⟩
  decide

/-- Claim C1 (amended): two URLs with the same host and different paths map
    to the identical cache-file name provided both paths are nonempty and
    contain no dot (and no newline, which the regex's `.` cannot match):
    the key then depends only on the host part. -/
theorem C1_theorem (host p1 p2 : List Char)
    (hp1 : p1 ≠ []) (hp2 : p2 ≠ [])
    (hd1 : '.' ∉ p1) (hd2 : '.' ∉ p2)
    (hn1 : '\n' ∉ p1) (hn2 : '\n' ∉ p2) :
    cacheKey (urlOf host p1) = cacheKey (urlOf host p2) := by
  suffices h : get_domain (urlOf host p1) = get_domain (urlOf host p2) by
    unfold cacheKey
    rw [h]
  have hs1 : stripScheme (urlOf host p1) = some (host ++ p1) := by
    unfold urlOf
    rw [List.append_assoc]
    exact stripScheme_http _
  have hs2 : stripScheme (urlOf host p2) = some (host ++ p2) := by
    unfold urlOf
    rw [List.append_assoc]
    exact stripScheme_http _
  rw [get_domain_eq _ _ hs1, get_domain_eq _ _ hs2]
  rw [www_isPrefixOf_append host p1 hp1 hd1, www_isPrefixOf_append host p2 hp2 hd2]
  by_cases hw : ("www.".data).isPrefixOf host = true
  · rw [if_pos hw, if_pos hw]
    have hlen4 : 4 ≤ host.length := by
      have := (List.isPrefixOf_iff_prefix.mp hw).length_le
      simpa using this
    rw [List.drop_append_of_le_length hlen4, List.drop_append_of_le_length hlen4]
    have hmb : matchBody (host.drop 4 ++ p1) = matchBody (host.drop 4 ++ p2) :=
      matchBody_append_congr _ p1 p2 hp1 hp2 hd1 hd2 hn1 hn2
    rw [hmb]
    cases hg : matchBody (host.drop 4 ++ p2) with
    | some g => rfl
    | none => exact matchBody_append_congr host p1 p2 hp1 hp2 hd1 hd2 hn1 hn2
  · rw [if_neg hw, if_neg hw]
    exact matchBody_append_congr host p1 p2 hp1 hp2 hd1 hd2 hn1 hn2

/-- Witness for C1 (amended): `http://example.com/a` and
    `http://example.com/b` (dot-free paths) share the cache key. -/
theorem C1_witness :
    cacheKey (urlOf ("example.com".data) ("/a".data)) =
      cacheKey (urlOf ("example.com".data) ("/b".data)) :=
  C1_theorem ("example.com".data) ("/a".data) ("/b".data)
    (by decide) (by decide) (by decide) (by decide) (by decide) (by decide)

end WebScripts
